import Mathlib

/-!
Verification of `src/datasets/extract_frames_and_boxes_h36m.py`.

The script has two independent pipelines plus glue:

* `extract_bounding_boxes` converts per-frame binary masks (stored transposed,
  behind an HDF5 reference indirection) into `[left, top, width, height]`
  bounding boxes, one per mask, and writes the whole array to a derived path.
* `extract_frames` walks the frames of one video and writes every frame whose
  0-based index is divisible by 5 or by 64 as `frame_{i:06d}.jpg`, skipping
  files that already exist.
* `main` checks the `DATA_ROOT` environment variable and fans the work items
  out over a `multiprocessing.Pool`.

Masks are embedded as `List (List Bool)` (rows of pixels; numpy arrays are
rectangular, which is the `Rect` predicate below).  Machine floats only ever
hold small non-negative integers here (`np.float32` indices and extents), so
boxes are embedded as `List Nat`.  File systems are embedded as association
lists from names to contents, and a "run" of a converter returns the writes it
performs.
-/

namespace MetroPose

/-! ### Mask analysis (`extract_bounding_boxes`, lines 34-44)

`mask = np.array(f['#refs#'][ref]).T` gives a rows-by-columns 2-D array.
`np.any(mask, axis=0)` is the per-column "some pixel nonzero" vector,
`np.any(mask, axis=1)` the per-row one; `np.nonzero(v)[0]` lists the indices
of the true entries in increasing order, and `arr[[0, -1]]` picks the first
and last entry, raising `IndexError` when `arr` is empty. -/

/-- Number of columns of a rectangular row-major grid. -/
def numCols (m : List (List Bool)) : Nat := (m.headD []).length

/-- Pixel lookup; out-of-range reads give `false` (only used with in-range
indices when reasoning about the rectangular arrays of the source). -/
def px (m : List (List Bool)) (r c : Nat) : Bool := (m.getD r []).getD c false

/-- `np.any(mask, axis=0)` at one column: some row has a nonzero pixel there. -/
def colHasNonzero (m : List (List Bool)) (c : Nat) : Bool :=
  m.any (fun row => row.getD c false)

/-- `np.any(mask, axis=0)`: per-column occupancy vector. -/
def anyAxis0 (m : List (List Bool)) : List Bool :=
  (List.range (numCols m)).map (colHasNonzero m)

/-- One entry of `np.any(mask, axis=1)`: the row has a nonzero pixel. -/
def rowHasNonzero (row : List Bool) : Bool := row.any id

/-- `np.any(mask, axis=1)`: per-row occupancy vector. -/
def anyAxis1 (m : List (List Bool)) : List Bool := m.map rowHasNonzero

/-- `np.nonzero(v)[0]`: indices of the true entries, in increasing order. -/
def nonzeroIdx (bs : List Bool) : List Nat :=
  (List.range bs.length).filter (fun i => bs.getD i false)

/-- `arr[[0, -1]]`, i.e. first and last element; `none` models the
`IndexError` raised on an empty `arr`. -/
def firstLast (l : List Nat) : Option (Nat × Nat) :=
  match l.head?, l.getLast? with
  | some a, some b => some (a, b)
  | _, _ => none

/-- Lines 39-44: the per-mask body of the loop.  The `try` block computes
`xmin, xmax` from the column vector and `ymin, ymax` from the row vector and
stores `[xmin, ymin, xmax - xmin + 1, ymax - ymin + 1]`; an `IndexError`
(empty nonzero set) is caught and `[0, 0, 0, 0]` stored instead. -/
def extractBBox (m : List (List Bool)) : List Nat :=
  match firstLast (nonzeroIdx (anyAxis0 m)), firstLast (nonzeroIdx (anyAxis1 m)) with
  | some (xmin, xmax), some (ymin, ymax) => [xmin, ymin, xmax - xmin + 1, ymax - ymin + 1]
  | _, _ => [0, 0, 0, 0]

/-- `np.array(...).T` on a rectangular rows-by-columns grid. -/
def transposeM (m : List (List Bool)) : List (List Bool) :=
  (List.range (numCols m)).map (fun c => m.map (fun row => row.getD c false))

/-- Line 38 + lines 39-44 for one successfully resolved stored mask. -/
def decodeMask (stored : List (List Bool)) : List Nat := extractBBox (transposeM stored)

/-- The whole decode loop over the resolved masks of one file, index-aligned. -/
def decode (masks : List (List (List Bool))) : List (List Nat) := masks.map decodeMask

/-! ### Shape and span predicates used to state the claims -/

/-- The grid is rectangular (every numpy 2-D array is). -/
def Rect (m : List (List Bool)) : Prop := ∀ row ∈ m, row.length = numCols m

instance (m : List (List Bool)) : Decidable (Rect m) :=
  List.decidableBAll _ m

/-- The nonzero pixels of `m` span exactly the column interval `[c0, c1]`:
both bounds are attained and every nonzero pixel lies between them. -/
def SpansCols (m : List (List Bool)) (c0 c1 : Nat) : Prop :=
  (∃ r < m.length, px m r c0 = true) ∧ (∃ r < m.length, px m r c1 = true) ∧
    ∀ r < m.length, ∀ c < (m.getD r []).length, px m r c = true → c0 ≤ c ∧ c ≤ c1

instance (m : List (List Bool)) (c0 c1 : Nat) : Decidable (SpansCols m c0 c1) := by
  unfold SpansCols; infer_instance

/-- The nonzero pixels of `m` span exactly the row interval `[r0, r1]`. -/
def SpansRows (m : List (List Bool)) (r0 r1 : Nat) : Prop :=
  (∃ c < (m.getD r0 []).length, px m r0 c = true) ∧
    (∃ c < (m.getD r1 []).length, px m r1 c = true) ∧
    ∀ r < m.length, ∀ c < (m.getD r []).length, px m r c = true → r0 ≤ r ∧ r ≤ r1

instance (m : List (List Bool)) (r0 r1 : Nat) : Decidable (SpansRows m r0 r1) := by
  unfold SpansRows; infer_instance

/-- `m` has exactly one nonzero pixel, at `(row, col) = (r, c)`. -/
def SinglePixel (m : List (List Bool)) (r c : Nat) : Prop :=
  px m r c = true ∧
    ∀ r' < m.length, ∀ c' < (m.getD r' []).length, px m r' c' = true → r' = r ∧ c' = c

instance (m : List (List Bool)) (r c : Nat) : Decidable (SinglePixel m r c) := by
  unfold SinglePixel; infer_instance

/-- Every pixel of `m` is zero. -/
def AllZero (m : List (List Bool)) : Prop := ∀ row ∈ m, ∀ b ∈ row, b = false

instance (m : List (List Bool)) : Decidable (AllZero m) :=
  List.decidableBAll _ m


/-! ### Per-file loop with fallible mask resolution (lines 34-49)

Line 38, `mask = np.array(f['#refs#'][ref]).T`, sits *outside* the
`try`/`except IndexError` of lines 39-44: a mask entry whose reference cannot
be resolved to an array raises there and the exception leaves the loop.  An
entry is therefore embedded as `Except Unit (List (List Bool))`: `ok` carries
the resolved stored mask, `error` a resolution failure. -/

/-- Lines 37-44: the loop over the `Masks` entries.  A resolution failure
(outside the `try`) aborts the loop; a resolved mask always yields a box
(the `IndexError` of the empty-boundary case is caught inside `decodeMask`'s
caller, lines 40-44, and replaced by `[0, 0, 0, 0]` in `extractBBox`). -/
def bboxLoop : List (Except Unit (List (List Bool))) → Except Unit (List (List Nat))
  | [] => Except.ok []
  | m :: rest =>
    match m with
    | Except.error e => Except.error e
    | Except.ok mask =>
      match bboxLoop rest with
      | Except.error e => Except.error e
      | Except.ok bs => Except.ok (decodeMask mask :: bs)

/-- Lines 46-47: `pathlib.Path(src).parents[2] / f'BBoxes/{filename[:-4]}.npy'`
with `filename = os.path.basename(src)`.  Paths are component lists;
`parents[2]` drops the last three components (`parents[0]` is the directory
holding the file). -/
def dstComponents (src : List String) : List String :=
  src.dropLast.dropLast.dropLast ++
    ["BBoxes", (src.getLastD "").dropRight 4 ++ ".npy"]

/-- Lines 34-49, `extract_bounding_boxes` as the list of file writes it
performs: the single `np.save` happens after the whole loop, so an aborted
loop writes nothing, and a completed loop writes the full array
unconditionally (overwriting any previous file at that path). -/
def extract_bounding_boxes (src : List String)
    (entries : List (Except Unit (List (List Bool)))) :
    List (List String × List (List Nat)) :=
  match bboxLoop entries with
  | Except.error _ => []
  | Except.ok bs => [(dstComponents src, bs)]

/-! ### Frame sampling (`extract_frames`, lines 52-65)

A file system is an association list of (name, frame contents); frame
contents are opaque, embedded as `Nat`.  `extract_frames` threads the
destination directory's file set through the loop and returns the final
state; writes append, the existence check `os.path.exists` is `hasName`. -/

/-- Line 61's predicate: `i_frame % 5 == 0 or i_frame % 64 == 0`. -/
def selected (i : Nat) : Bool := i % 5 == 0 || i % 64 == 0

/-- `f'{i:06d}'`: decimal digits left-padded with zeros to width 6. -/
def pad6 (i : Nat) : String :=
  String.mk (List.replicate (6 - (toString i).length) '0') ++ toString i

/-- Line 62: `f'frame_{i_frame:06d}.jpg'`. -/
def frameFileName (i : Nat) : String := "frame_" ++ pad6 i ++ ".jpg"

/-- `os.path.exists` on the destination directory model. -/
def hasName (fs : List (String × Nat)) (nm : String) : Bool :=
  fs.any (fun p => p.1 = nm)

/-- Lines 61-65 for one frame: write `frame_{i:06d}.jpg` when the index is
selected and the file does not exist yet. -/
def writeStep (fs : List (String × Nat)) (i : Nat) (frame : Nat) :
    List (String × Nat) :=
  if selected i then
    if hasName fs (frameFileName i) then fs
    else fs ++ [(frameFileName i, frame)]
  else fs

/-- Lines 60-65: the `enumerate(reader)` loop over (index, frame) pairs. -/
def framesLoop (fs : List (String × Nat)) : List (Nat × Nat) → List (String × Nat)
  | [] => fs
  | (i, fr) :: rest => framesLoop (writeStep fs i fr) rest

/-- `extract_frames`: run the loop over the enumerated stream, starting from
the current contents `fs` of the destination directory. -/
def extract_frames (fs : List (String × Nat)) (frames : List Nat) :
    List (String × Nat) :=
  framesLoop fs frames.enum

/-- The 0-based indices a stream of `n` frames exports (when none of the
files exist yet): line 61's filter over `range n`. -/
def exportedIndices (n : Nat) : List Nat := (List.range n).filter selected

/-! ### Work distribution (`pool.map`, lines 19-25)

`multiprocessing.Pool.map` splits the item list into contiguous chunks,
hands each chunk to one worker, applies the function to every element and
reassembles the results in submission order; it blocks until all chunks are
done.  The partition is embedded explicitly so that the exactly-once property
can be proved for *every* chunk size (`c + 1`, so all positive sizes). -/

/-- Split a list into contiguous chunks of size `c + 1`. -/
def chunksOf (c : Nat) : List α → List (List α)
  | [] => []
  | x :: xs => (x :: xs.take c) :: chunksOf c (xs.drop c)
termination_by l => l.length
decreasing_by simp [List.length_drop]; omega

/-- `pool.map f items` with chunk size `c + 1`: map each chunk, concatenate. -/
def poolMap (c : Nat) (f : α → β) (l : List α) : List β :=
  ((chunksOf c l).map (List.map f)).flatten

/-- The invocation trace of the pool: every argument the workers pass to the
per-item function, in chunk order. -/
def poolTrace (c : Nat) (l : List α) : List α := (chunksOf c l).flatten

/-! ### Entry point (`main`, lines 14-25) -/

/-- Outcome of the `DATA_ROOT` check at the top of `main`. -/
inductive MainResult where
  | earlyExit (message : String) (exitCode : Nat)
  | proceed (dataRoot : String)
  deriving DecidableEq

/-- Lines 15-20: if `DATA_ROOT` is absent from the environment, print the
hint and `sys.exit(1)`; otherwise continue with its value (the pool work of
lines 19-25 happens only in the `proceed` branch). -/
def mainCheck (env : List (String × String)) : MainResult :=
  match env.find? (fun kv => kv.1 = "DATA_ROOT") with
  | none =>
    MainResult.earlyExit
      "Set the DATA_ROOT environment variable to the parent dir of the h36m directory." 1
  | some kv => MainResult.proceed kv.2

/-! ### Basic lemmas about `getD`, `nonzeroIdx` and sorted index lists -/

theorem getD_eq_elem {α : Type} {l : List α} {i : Nat} (d : α) (h : i < l.length) :
    l.getD i d = l.get ⟨i, h⟩ := by
  rw [List.getD_eq_getElem?_getD, List.getElem?_eq_getElem h]
  rfl

theorem getD_false_of_le {row : List Bool} {c : Nat} (h : row.length ≤ c) :
    row.getD c false = false := by
  rw [List.getD_eq_getElem?_getD, List.getElem?_eq_none h]
  rfl

theorem getD_nil_of_le {m : List (List Bool)} {r : Nat} (h : m.length ≤ r) :
    m.getD r [] = [] := by
  rw [List.getD_eq_getElem?_getD, List.getElem?_eq_none h]
  rfl

theorem getD_mem {m : List (List Bool)} {r : Nat} (hr : r < m.length) :
    m.getD r [] ∈ m := by
  rw [getD_eq_elem [] hr]
  exact List.get_mem m r hr

theorem px_row_lt {m : List (List Bool)} {r c : Nat} (h : px m r c = true) :
    r < m.length := by
  by_contra hr
  rw [px, getD_nil_of_le (by omega)] at h
  simp [List.getD] at h

theorem px_col_lt {m : List (List Bool)} {r c : Nat} (h : px m r c = true) :
    c < (m.getD r []).length := by
  by_contra hc
  rw [px, getD_false_of_le (by omega)] at h
  cases h

theorem mem_nonzeroIdx {bs : List Bool} {i : Nat} :
    i ∈ nonzeroIdx bs ↔ i < bs.length ∧ bs.getD i false = true := by
  simp [nonzeroIdx, List.mem_filter, List.mem_range]

theorem pairwise_nonzeroIdx (bs : List Bool) : (nonzeroIdx bs).Pairwise (· < ·) :=
  List.Pairwise.sublist (List.filter_sublist _) (List.pairwise_lt_range _)

theorem head?_min_of_pairwise {l : List Nat} (hs : l.Pairwise (· < ·)) {a : Nat}
    (ha : l.head? = some a) : ∀ x ∈ l, a ≤ x := by
  cases l with
  | nil => cases ha
  | cons b t =>
    simp only [List.head?_cons, Option.some.injEq] at ha
    subst ha
    intro x hx
    rcases List.mem_cons.mp hx with rfl | hxt
    · exact Nat.le_refl _
    · exact Nat.le_of_lt ((List.pairwise_cons.mp hs).1 x hxt)

theorem mem_of_getLast? {l : List Nat} {b : Nat} (hb : l.getLast? = some b) :
    b ∈ l := by
  induction l with
  | nil => cases hb
  | cons a t ih =>
    cases t with
    | nil =>
      simp only [List.getLast?_singleton, Option.some.injEq] at hb
      simp [hb]
    | cons c t' =>
      rw [List.getLast?_cons_cons] at hb
      exact List.mem_cons_of_mem a (ih hb)

theorem getLast?_max_of_pairwise {l : List Nat} (hs : l.Pairwise (· < ·)) {b : Nat}
    (hb : l.getLast? = some b) : ∀ x ∈ l, x ≤ b := by
  induction l with
  | nil => cases hb
  | cons a t ih =>
    cases t with
    | nil =>
      simp only [List.getLast?_singleton, Option.some.injEq] at hb
      subst hb
      intro x hx
      simp only [List.mem_singleton] at hx
      omega
    | cons c t' =>
      rw [List.getLast?_cons_cons] at hb
      intro x hx
      rcases List.mem_cons.mp hx with rfl | hxt
      · exact Nat.le_of_lt
          ((List.pairwise_cons.mp hs).1 b (mem_of_getLast? hb))
      · exact ih (List.pairwise_cons.mp hs).2 hb x hxt

theorem exists_getLast? {l : List Nat} (h : l ≠ []) : ∃ b, l.getLast? = some b := by
  induction l with
  | nil => exact absurd rfl h
  | cons a t ih =>
    cases t with
    | nil => exact ⟨a, rfl⟩
    | cons c t' =>
      obtain ⟨b, hb⟩ := ih (by simp)
      exact ⟨b, by rw [List.getLast?_cons_cons]; exact hb⟩

theorem firstLast_eq_none {l : List Nat} (h : firstLast l = none) : l = [] := by
  cases l with
  | nil => rfl
  | cons x xs =>
    obtain ⟨b, hb⟩ := exists_getLast? (l := x :: xs) (by simp)
    rw [firstLast, List.head?_cons, hb] at h
    cases h

/-! ### Characterizing the per-axis occupancy vectors -/

theorem length_anyAxis0 (m : List (List Bool)) : (anyAxis0 m).length = numCols m := by
  simp [anyAxis0]

theorem length_anyAxis1 (m : List (List Bool)) : (anyAxis1 m).length = m.length := by
  simp [anyAxis1]

theorem getD_anyAxis0 {m : List (List Bool)} {c : Nat} (hc : c < numCols m) :
    (anyAxis0 m).getD c false = colHasNonzero m c := by
  simp [anyAxis0, List.getD_eq_getElem?_getD, List.getElem?_map, List.getElem?_range hc]

theorem getD_anyAxis1 {m : List (List Bool)} {r : Nat} (hr : r < m.length) :
    (anyAxis1 m).getD r false = rowHasNonzero (m.getD r []) := by
  simp [anyAxis1, List.getD_eq_getElem?_getD, List.getElem?_map,
    List.getElem?_eq_getElem hr]

theorem colHasNonzero_iff {m : List (List Bool)} {c : Nat} :
    colHasNonzero m c = true ↔ ∃ r < m.length, px m r c = true := by
  simp only [colHasNonzero, List.any_eq_true]
  constructor
  · rintro ⟨row, hrow, hv⟩
    obtain ⟨r, hr, hEq⟩ := List.mem_iff_getElem.mp hrow
    refine ⟨r, hr, ?_⟩
    rw [px, getD_eq_elem [] hr]
    rw [List.get_eq_getElem]
    simpa [hEq] using hv
  · rintro ⟨r, hr, hpx⟩
    refine ⟨m.getD r [], getD_mem hr, ?_⟩
    exact hpx

theorem rowHasNonzero_iff {m : List (List Bool)} {r : Nat} :
    rowHasNonzero (m.getD r []) = true ↔
      ∃ c < (m.getD r []).length, px m r c = true := by
  simp only [rowHasNonzero, List.any_eq_true, id_eq]
  constructor
  · rintro ⟨b, hb, hv⟩
    obtain ⟨c, hc, hEq⟩ := List.mem_iff_getElem.mp hb
    refine ⟨c, hc, ?_⟩
    rw [px, getD_eq_elem false hc]
    rw [List.get_eq_getElem]
    rw [hEq]
    exact hv
  · rintro ⟨c, hc, hpx⟩
    refine ⟨(m.getD r []).getD c false, ?_, hpx⟩
    rw [getD_eq_elem false hc]
    exact List.get_mem _ _ _

theorem mem_cols_iff {m : List (List Bool)} (hm : Rect m) {c : Nat} :
    c ∈ nonzeroIdx (anyAxis0 m) ↔ ∃ r < m.length, px m r c = true := by
  rw [mem_nonzeroIdx, length_anyAxis0]
  constructor
  · rintro ⟨hc, h⟩
    rw [getD_anyAxis0 hc] at h
    exact colHasNonzero_iff.mp h
  · rintro ⟨r, hr, hpx⟩
    have hc : c < numCols m := by
      have hlen := px_col_lt hpx
      have := hm _ (getD_mem hr)
      omega
    exact ⟨hc, by rw [getD_anyAxis0 hc]; exact colHasNonzero_iff.mpr ⟨r, hr, hpx⟩⟩

theorem mem_rows_iff {m : List (List Bool)} {r : Nat} :
    r ∈ nonzeroIdx (anyAxis1 m) ↔
      r < m.length ∧ ∃ c < (m.getD r []).length, px m r c = true := by
  rw [mem_nonzeroIdx, length_anyAxis1]
  constructor
  · rintro ⟨hr, h⟩
    rw [getD_anyAxis1 hr] at h
    exact ⟨hr, rowHasNonzero_iff.mp h⟩
  · rintro ⟨hr, hc⟩
    exact ⟨hr, by rw [getD_anyAxis1 hr]; exact rowHasNonzero_iff.mpr hc⟩

/-! ### The central span lemma for `extractBBox` -/

theorem extractBBox_eq_of_spans {m : List (List Bool)} (hm : Rect m)
    {c0 c1 r0 r1 : Nat} (hc : SpansCols m c0 c1) (hr : SpansRows m r0 r1) :
    extractBBox m = [c0, r0, c1 - c0 + 1, r1 - r0 + 1] := by
  obtain ⟨⟨rc0, hrc0, hpc0⟩, ⟨rc1, hrc1, hpc1⟩, hcb⟩ := hc
  obtain ⟨⟨cr0, hcr0, hpr0⟩, ⟨cr1, hcr1, hpr1⟩, hrb⟩ := hr
  have hc0A : c0 ∈ nonzeroIdx (anyAxis0 m) := (mem_cols_iff hm).mpr ⟨rc0, hrc0, hpc0⟩
  have hc1A : c1 ∈ nonzeroIdx (anyAxis0 m) := (mem_cols_iff hm).mpr ⟨rc1, hrc1, hpc1⟩
  have hr0B : r0 ∈ nonzeroIdx (anyAxis1 m) :=
    mem_rows_iff.mpr ⟨px_row_lt hpr0, cr0, hcr0, hpr0⟩
  have hr1B : r1 ∈ nonzeroIdx (anyAxis1 m) :=
    mem_rows_iff.mpr ⟨px_row_lt hpr1, cr1, hcr1, hpr1⟩
  have hAle : ∀ x ∈ nonzeroIdx (anyAxis0 m), c0 ≤ x ∧ x ≤ c1 := by
    intro x hx
    obtain ⟨r, hrlt, hp⟩ := (mem_cols_iff hm).mp hx
    exact hcb r hrlt x (px_col_lt hp) hp
  have hBle : ∀ x ∈ nonzeroIdx (anyAxis1 m), r0 ≤ x ∧ x ≤ r1 := by
    intro x hx
    obtain ⟨hxlt, c, hclt, hp⟩ := mem_rows_iff.mp hx
    exact hrb x hxlt c hclt hp
  have hAne : nonzeroIdx (anyAxis0 m) ≠ [] := fun h => by rw [h] at hc0A; cases hc0A
  have hBne : nonzeroIdx (anyAxis1 m) ≠ [] := fun h => by rw [h] at hr0B; cases hr0B
  obtain ⟨a, ha⟩ : ∃ a, (nonzeroIdx (anyAxis0 m)).head? = some a := by
    cases hl : nonzeroIdx (anyAxis0 m) with
    | nil => exact absurd hl hAne
    | cons x xs => exact ⟨x, rfl⟩
  obtain ⟨b, hb⟩ := exists_getLast? hAne
  obtain ⟨a', ha'⟩ : ∃ a', (nonzeroIdx (anyAxis1 m)).head? = some a' := by
    cases hl : nonzeroIdx (anyAxis1 m) with
    | nil => exact absurd hl hBne
    | cons x xs => exact ⟨x, rfl⟩
  obtain ⟨b', hb'⟩ := exists_getLast? hBne
  have hamem : a ∈ nonzeroIdx (anyAxis0 m) := List.mem_of_mem_head? (by rw [ha]; rfl)
  have hbmem : b ∈ nonzeroIdx (anyAxis0 m) := mem_of_getLast? hb
  have ha'mem : a' ∈ nonzeroIdx (anyAxis1 m) := List.mem_of_mem_head? (by rw [ha']; rfl)
  have hb'mem : b' ∈ nonzeroIdx (anyAxis1 m) := mem_of_getLast? hb'
  have hac0 : a = c0 := by
    have h1 := head?_min_of_pairwise (pairwise_nonzeroIdx _) ha c0 hc0A
    have h2 := (hAle a hamem).1
    omega
  have hbc1 : b = c1 := by
    have h1 := getLast?_max_of_pairwise (pairwise_nonzeroIdx _) hb c1 hc1A
    have h2 := (hAle b hbmem).2
    omega
  have ha'r0 : a' = r0 := by
    have h1 := head?_min_of_pairwise (pairwise_nonzeroIdx _) ha' r0 hr0B
    have h2 := (hBle a' ha'mem).1
    omega
  have hb'r1 : b' = r1 := by
    have h1 := getLast?_max_of_pairwise (pairwise_nonzeroIdx _) hb' r1 hr1B
    have h2 := (hBle b' hb'mem).2
    omega
  have hfA : firstLast (nonzeroIdx (anyAxis0 m)) = some (c0, c1) := by
    simp only [firstLast, ha, hb, hac0, hbc1]
  have hfB : firstLast (nonzeroIdx (anyAxis1 m)) = some (r0, r1) := by
    simp only [firstLast, ha', hb', ha'r0, hb'r1]
  simp only [extractBBox, hfA, hfB]

/-! ### The transpose of a stored mask is rectangular -/

theorem numCols_transposeM {m : List (List Bool)} (h0 : 0 < numCols m) :
    numCols (transposeM m) = m.length := by
  rw [numCols, transposeM]
  cases hnc : numCols m with
  | zero => omega
  | succ k =>
    rw [List.range_succ_eq_map]
    simp

theorem rect_transposeM (m : List (List Bool)) : Rect (transposeM m) := by
  intro row hrow
  rw [transposeM, List.mem_map] at hrow
  obtain ⟨c, hc, rfl⟩ := hrow
  rw [List.mem_range] at hc
  rw [List.length_map, numCols_transposeM (by omega)]

/-! ### All-zero masks -/

theorem allZero_getD {m : List (List Bool)} (h : AllZero m) {row : List Bool}
    (hrow : row ∈ m) (c : Nat) : row.getD c false = false := by
  rcases Nat.lt_or_ge c row.length with hc | hc
  · rw [getD_eq_elem false hc]
    exact h row hrow _ (List.get_mem _ _ _)
  · exact getD_false_of_le hc

theorem allZero_transposeM {m : List (List Bool)} (h : AllZero m) :
    AllZero (transposeM m) := by
  intro row hrow b hb
  rw [transposeM, List.mem_map] at hrow
  obtain ⟨c, _, rfl⟩ := hrow
  rw [List.mem_map] at hb
  obtain ⟨row', hrow', rfl⟩ := hb
  exact allZero_getD h hrow' c

theorem nonzeroIdx_anyAxis0_eq_nil {m : List (List Bool)} (h : AllZero m) :
    nonzeroIdx (anyAxis0 m) = [] := by
  rw [nonzeroIdx, List.filter_eq_nil_iff]
  intro a ha
  rw [List.mem_range, length_anyAxis0] at ha
  rw [getD_anyAxis0 ha]
  have hfalse : colHasNonzero m a = false := by
    rw [colHasNonzero, List.any_eq_false]
    intro row hrow
    rw [allZero_getD h hrow a]
    simp
  simp [hfalse]

theorem nonzeroIdx_anyAxis1_eq_nil {m : List (List Bool)} (h : AllZero m) :
    nonzeroIdx (anyAxis1 m) = [] := by
  rw [nonzeroIdx, List.filter_eq_nil_iff]
  intro a ha
  rw [List.mem_range, length_anyAxis1] at ha
  rw [getD_anyAxis1 ha]
  have hfalse : rowHasNonzero (m.getD a []) = false := by
    rw [rowHasNonzero, List.any_eq_false]
    intro b hb
    simp [h _ (getD_mem ha) b hb]
  rw [hfalse]
  simp

theorem extractBBox_allZero {m : List (List Bool)} (h : AllZero m) :
    extractBBox m = [0, 0, 0, 0] := by
  simp only [extractBBox, nonzeroIdx_anyAxis0_eq_nil h, nonzeroIdx_anyAxis1_eq_nil h,
    firstLast]
  rfl

theorem decodeMask_allZero {stored : List (List Bool)} (h : AllZero stored) :
    decodeMask stored = [0, 0, 0, 0] :=
  extractBBox_allZero (allZero_transposeM h)

/-! ### A single nonzero pixel spans a one-point interval on both axes -/

theorem singlePixel_spansCols {m : List (List Bool)} {r c : Nat}
    (h : SinglePixel m r c) : SpansCols m c c := by
  obtain ⟨hp, huniq⟩ := h
  refine ⟨⟨r, px_row_lt hp, hp⟩, ⟨r, px_row_lt hp, hp⟩, ?_⟩
  intro r' hr' c' hc' hp'
  have := huniq r' hr' c' hc' hp'
  omega

theorem singlePixel_spansRows {m : List (List Bool)} {r c : Nat}
    (h : SinglePixel m r c) : SpansRows m r r := by
  obtain ⟨hp, huniq⟩ := h
  refine ⟨⟨c, px_col_lt hp, hp⟩, ⟨c, px_col_lt hp, hp⟩, ?_⟩
  intro r' hr' c' hc' hp'
  have := huniq r' hr' c' hc' hp'
  omega



/-! ## Claim theorems -/

theorem firstLast_eq_some {l : List Nat} {a b : Nat}
    (h : firstLast l = some (a, b)) : l.head? = some a ∧ l.getLast? = some b := by
  simp only [firstLast] at h
  cases hh : l.head? with
  | none => rw [hh] at h; cases h
  | some x =>
    cases hg : l.getLast? with
    | none => rw [hh, hg] at h; cases h
    | some y =>
      rw [hh, hg] at h
      simp only [Option.some.injEq, Prod.mk.injEq] at h
      exact ⟨by rw [h.1], by rw [h.2]⟩

/-- C1: `decode` returns one bounding box per mask, index-aligned with the
mask order; for a mask whose nonzero pixels (after resolving the indirection
and transposing to rows-by-columns orientation) span columns `[c0, c1]` and
rows `[r0, r1]`, the entry is `[c0, r0, c1 - c0 + 1, r1 - r0 + 1]`,
independent of the interior pattern; in particular a mask with a single
nonzero pixel at `(row r, col c)` yields `[c, r, 1, 1]`. -/
theorem decode_span_aligned (masks : List (List (List Bool))) :
    (decode masks).length = masks.length ∧
    (∀ i : Nat, (decode masks)[i]? = (masks[i]?).map decodeMask) ∧
    (∀ stored : List (List Bool), ∀ c0 c1 r0 r1 : Nat,
      SpansCols (transposeM stored) c0 c1 → SpansRows (transposeM stored) r0 r1 →
      decodeMask stored = [c0, r0, c1 - c0 + 1, r1 - r0 + 1]) ∧
    (∀ stored : List (List Bool), ∀ r c : Nat,
      SinglePixel (transposeM stored) r c → decodeMask stored = [c, r, 1, 1]) := by
  refine ⟨by simp [decode], by intro i; simp [decode], ?_, ?_⟩
  · intro stored c0 c1 r0 r1 hc hr
    exact extractBBox_eq_of_spans (rect_transposeM stored) hc hr
  · intro stored r c h
    have heq := extractBBox_eq_of_spans (rect_transposeM stored)
      (singlePixel_spansCols h) (singlePixel_spansRows h)
    rw [decodeMask, heq]
    simp

/-- C1 witness: a 2×2 mask spanning both columns of row 1, and a mask with a
single nonzero pixel, evaluated at concrete inputs. -/
theorem decode_span_aligned_witness :
    decodeMask [[false, true], [false, true]] = [0, 1, 2, 1] ∧
    decodeMask [[false], [true]] = [1, 0, 1, 1] :=
  ⟨(decode_span_aligned []).2.2.1 [[false, true], [false, true]] 0 1 1 1
      (by decide) (by decide),
    (decode_span_aligned []).2.2.2 [[false], [true]] 0 1 (by decide)⟩

/-- C10: for a rectangular mask, the emitted box `[left, top, w, h]` lies
within the grid (`left + w ≤ numCols`, `top + h ≤ rows`; `left, top ≥ 0` holds
by the `Nat` embedding), `w = 0` exactly when `h = 0` (the degenerate case),
and every nonzero pixel lies inside the box. -/
theorem extractBBox_invariants (m : List (List Bool)) (hm : Rect m) :
    ∃ left top w h, extractBBox m = [left, top, w, h] ∧
      left + w ≤ numCols m ∧ top + h ≤ m.length ∧ (w = 0 ↔ h = 0) ∧
      ∀ r c, px m r c = true →
        left ≤ c ∧ c ≤ left + w - 1 ∧ top ≤ r ∧ r ≤ top + h - 1 := by
  rcases hfA : firstLast (nonzeroIdx (anyAxis0 m)) with _ | ⟨a, b⟩
  · refine ⟨0, 0, 0, 0, ?_, by omega, by omega, by simp, ?_⟩
    · rcases hfB : firstLast (nonzeroIdx (anyAxis1 m)) with _ | p <;>
        simp only [extractBBox, hfA, hfB]
    · intro r c hp
      have hmem : c ∈ nonzeroIdx (anyAxis0 m) :=
        (mem_cols_iff hm).mpr ⟨r, px_row_lt hp, hp⟩
      rw [firstLast_eq_none hfA] at hmem
      cases hmem
  · rcases hfB : firstLast (nonzeroIdx (anyAxis1 m)) with _ | ⟨a', b'⟩
    · refine ⟨0, 0, 0, 0, by simp only [extractBBox, hfA, hfB], by omega, by omega,
        by simp, ?_⟩
      intro r c hp
      have hmem : r ∈ nonzeroIdx (anyAxis1 m) :=
        mem_rows_iff.mpr ⟨px_row_lt hp, c, px_col_lt hp, hp⟩
      rw [firstLast_eq_none hfB] at hmem
      cases hmem
    · obtain ⟨ha, hb⟩ := firstLast_eq_some hfA
      obtain ⟨ha', hb'⟩ := firstLast_eq_some hfB
      have hamem := List.mem_of_mem_head? (l := nonzeroIdx (anyAxis0 m)) (by rw [ha]; rfl)
      have hbmem := mem_of_getLast? hb
      have ha'mem := List.mem_of_mem_head? (l := nonzeroIdx (anyAxis1 m)) (by rw [ha']; rfl)
      have hb'mem := mem_of_getLast? hb'
      have hab : a ≤ b := head?_min_of_pairwise (pairwise_nonzeroIdx _) ha b hbmem
      have ha'b' : a' ≤ b' := head?_min_of_pairwise (pairwise_nonzeroIdx _) ha' b' hb'mem
      have hbcols : b < numCols m := by
        have hlen := (mem_nonzeroIdx.mp hbmem).1
        rwa [length_anyAxis0] at hlen
      have hb'rows : b' < m.length := by
        have hlen := (mem_nonzeroIdx.mp hb'mem).1
        rwa [length_anyAxis1] at hlen
      refine ⟨a, a', b - a + 1, b' - a' + 1, by simp only [extractBBox, hfA, hfB],
        by omega, by omega, by omega, ?_⟩
      intro r c hp
      have hcA : c ∈ nonzeroIdx (anyAxis0 m) :=
        (mem_cols_iff hm).mpr ⟨r, px_row_lt hp, hp⟩
      have hrB : r ∈ nonzeroIdx (anyAxis1 m) :=
        mem_rows_iff.mpr ⟨px_row_lt hp, c, px_col_lt hp, hp⟩
      have h1 := head?_min_of_pairwise (pairwise_nonzeroIdx _) ha c hcA
      have h2 := getLast?_max_of_pairwise (pairwise_nonzeroIdx _) hb c hcA
      have h3 := head?_min_of_pairwise (pairwise_nonzeroIdx _) ha' r hrB
      have h4 := getLast?_max_of_pairwise (pairwise_nonzeroIdx _) hb' r hrB
      omega

/-- C10 witness at a concrete 2×2 rectangular mask. -/
theorem extractBBox_invariants_witness :
    ∃ left top w h, extractBBox [[true, false], [false, true]] = [left, top, w, h] ∧
      left + w ≤ numCols [[true, false], [false, true]] ∧
      top + h ≤ ([[true, false], [false, true]] : List (List Bool)).length ∧
      (w = 0 ↔ h = 0) ∧
      ∀ r c, px [[true, false], [false, true]] r c = true →
        left ≤ c ∧ c ≤ left + w - 1 ∧ top ≤ r ∧ r ≤ top + h - 1 :=
  extractBBox_invariants [[true, false], [false, true]] (by decide)

/-- C3: a mask with no nonzero pixels yields exactly the degenerate box
`[0, 0, 0, 0]` instead of failing, and the remaining masks of the same file
are still decoded, index-aligned. -/
theorem decode_allZero (masks : List (List (List Bool))) (i : Nat)
    (stored : List (List Bool)) (hi : masks[i]? = some stored)
    (hz : AllZero stored) :
    (decode masks).length = masks.length ∧
    (decode masks)[i]? = some [0, 0, 0, 0] ∧
    ∀ j : Nat, (decode masks)[j]? = (masks[j]?).map decodeMask := by
  refine ⟨by simp [decode], ?_, by intro j; simp [decode]⟩
  simp [decode, hi, decodeMask_allZero hz]

/-- C3 witness: the middle mask of three is all-zero. -/
theorem decode_allZero_witness :
    (decode [[[true]], [[false]], [[true]]]).length = 3 ∧
    (decode [[[true]], [[false]], [[true]]])[1]? = some [0, 0, 0, 0] ∧
    ∀ j : Nat, (decode [[[true]], [[false]], [[true]]])[j]? =
      (([[[true]], [[false]], [[true]]] : List (List (List Bool)))[j]?).map decodeMask :=
  decode_allZero [[[true]], [[false]], [[true]]] 1 [[false]] (by decide) (by decide)

/-! ### Behaviour of the per-file loop under failures -/

theorem bboxLoop_ok_spec :
    ∀ {entries : List (Except Unit (List (List Bool)))} {bs : List (List Nat)},
      bboxLoop entries = Except.ok bs →
      bs.length = entries.length ∧
        ∀ i : Nat, ∀ mask, entries[i]? = some (Except.ok mask) →
          bs[i]? = some (decodeMask mask) := by
  intro entries
  induction entries with
  | nil =>
    intro bs h
    simp only [bboxLoop, Except.ok.injEq] at h
    subst h
    exact ⟨rfl, by intro i mask h'; simp at h'⟩
  | cons x rest ih =>
    intro bs h
    cases x with
    | error e =>
      simp only [bboxLoop] at h
      exact Except.noConfusion h
    | ok mask =>
      simp only [bboxLoop] at h
      cases hrec : bboxLoop rest with
      | error e => rw [hrec] at h; cases h
      | ok bs' =>
        rw [hrec] at h
        simp only [Except.ok.injEq] at h
        subst h
        obtain ⟨hlen, hidx⟩ := ih hrec
        refine ⟨by simp [hlen], ?_⟩
        intro i mask' h'
        cases i with
        | zero =>
          simp only [List.getElem?_cons_zero, Option.some.injEq, Except.ok.injEq] at h'
          simp [h']
        | succ j =>
          simp only [List.getElem?_cons_succ] at h' ⊢
          exact hidx j mask' h'

theorem bboxLoop_error_of_mem {entries : List (Except Unit (List (List Bool)))}
    (h : Except.error () ∈ entries) : ∃ e, bboxLoop entries = Except.error e := by
  induction entries with
  | nil => cases h
  | cons x rest ih =>
    cases x with
    | error e => exact ⟨e, by simp [bboxLoop]⟩
    | ok mask =>
      have hmem : Except.error () ∈ rest := by
        rcases List.mem_cons.mp h with h1 | h1
        · simp at h1
        · exact h1
      obtain ⟨e, he⟩ := ih hmem
      exact ⟨e, by simp [bboxLoop, he]⟩

theorem bboxLoop_ok_of_all_ok {entries : List (Except Unit (List (List Bool)))}
    (h : ∀ ent ∈ entries, ∃ mask, ent = Except.ok mask) :
    ∃ bs, bboxLoop entries = Except.ok bs := by
  induction entries with
  | nil => exact ⟨[], rfl⟩
  | cons x rest ih =>
    obtain ⟨mask, rfl⟩ := h x (List.mem_cons_self x rest)
    obtain ⟨bs, hbs⟩ := ih (fun ent he => h ent (List.mem_cons_of_mem _ he))
    exact ⟨decodeMask mask :: bs, by simp [bboxLoop, hbs]⟩

/-- C4 counterexample: a mask entry whose resolution fails (line 38, outside
the `try`) makes the whole loop abort with the error instead of substituting
`[0, 0, 0, 0]` and continuing with the remaining masks; no write is emitted
for the file. -/
theorem bbox_malformed_counterexample :
    bboxLoop [Except.error (), Except.ok [[true]]] = Except.error () ∧
    bboxLoop [Except.error (), Except.ok [[true]]] ≠
      Except.ok [[0, 0, 0, 0], [0, 0, 1, 1]] ∧
    extract_bounding_boxes ["a", "b", "c", "f.mat"]
      [Except.error (), Except.ok [[true]]] = [] := by
  refine ⟨rfl, ?_, rfl⟩
  intro h
  rw [show bboxLoop [Except.error (), Except.ok [[true]]] = Except.error () from rfl] at h
  exact Except.noConfusion h

/-- C4 amended: only the `IndexError` of the boundary-index computation
(empty nonzero set, e.g. an all-zero mask) is caught inside the loop and
replaced by `[0, 0, 0, 0]` with processing continuing; an entry whose mask
reference fails to resolve raises outside the guarded region, the error
propagates, the file is aborted and no output is written. -/
theorem bbox_error_policy (src : List String)
    (entries : List (Except Unit (List (List Bool)))) :
    (Except.error () ∈ entries → extract_bounding_boxes src entries = []) ∧
    ((∀ ent ∈ entries, ∃ mask, ent = Except.ok mask) →
      ∃ bs, bboxLoop entries = Except.ok bs ∧ bs.length = entries.length ∧
        extract_bounding_boxes src entries = [(dstComponents src, bs)] ∧
        ∀ i : Nat, ∀ mask, entries[i]? = some (Except.ok mask) → AllZero mask →
          bs[i]? = some [0, 0, 0, 0]) := by
  constructor
  · intro hmem
    obtain ⟨e, he⟩ := bboxLoop_error_of_mem hmem
    rw [extract_bounding_boxes, he]
  · intro hall
    obtain ⟨bs, hbs⟩ := bboxLoop_ok_of_all_ok hall
    obtain ⟨hlen, hidx⟩ := bboxLoop_ok_spec hbs
    refine ⟨bs, hbs, hlen, by rw [extract_bounding_boxes, hbs], ?_⟩
    intro i mask hi hz
    rw [hidx i mask hi, decodeMask_allZero hz]

/-- C4 amended witness: one unresolvable entry aborts the file with no write;
a file of two resolvable masks with an all-zero one still yields its write. -/
theorem bbox_error_policy_witness :
    extract_bounding_boxes ["a", "b", "c", "f.mat"] [Except.error ()] = [] :=
  (bbox_error_policy ["a", "b", "c", "f.mat"] [Except.error ()]).1
    (List.mem_cons_self _ _)

/-- C7: the destination write of `extract_bounding_boxes` happens only after
every mask of the source is decoded: an emitted write carries exactly one box
per mask entry, each the decode of its resolved mask; if the loop aborts with
an error, no (partial) write is emitted for that source. -/
theorem bbox_write_after_full (src : List String)
    (entries : List (Except Unit (List (List Bool)))) :
    (∀ w ∈ extract_bounding_boxes src entries,
      w.2.length = entries.length ∧
        ∀ i : Nat, ∀ mask, entries[i]? = some (Except.ok mask) →
          w.2[i]? = some (decodeMask mask)) ∧
    (∀ e, bboxLoop entries = Except.error e →
      extract_bounding_boxes src entries = []) := by
  constructor
  · intro w hw
    rw [extract_bounding_boxes] at hw
    cases hloop : bboxLoop entries with
    | error e => rw [hloop] at hw; cases hw
    | ok bs =>
      rw [hloop] at hw
      simp only [List.mem_singleton] at hw
      subst hw
      exact bboxLoop_ok_spec hloop
  · intro e he
    rw [extract_bounding_boxes, he]

/-- C7 witness: a completed one-mask file emits a write with one box. -/
theorem bbox_write_after_full_witness :
    ((["a", "BBoxes", "f.npy"], [[0, 0, 1, 1]]) :
        List String × List (List Nat)).2.length =
      ([Except.ok [[true]]] : List (Except Unit (List (List Bool)))).length :=
  ((bbox_write_after_full ["a", "b", "c", "f.mat"] [Except.ok [[true]]]).1
    (["a", "BBoxes", "f.npy"], [[0, 0, 1, 1]]) (by decide)).1

/-! ### Frame-sampling loop lemmas -/

theorem hasName_append (fs t : List (String × Nat)) (nm : String) :
    hasName (fs ++ t) nm = (hasName fs nm || hasName t nm) := by
  simp [hasName]

theorem hasName_eq_mem (fs : List (String × Nat)) (nm : String) :
    hasName fs nm = true ↔ nm ∈ fs.map Prod.fst := by
  simp [hasName, List.any_eq_true, List.mem_map]

theorem writeStep_append (fs : List (String × Nat)) (i fr : Nat) :
    ∃ t, writeStep fs i fr = fs ++ t ∧ ∀ p ∈ t, hasName fs p.1 = false := by
  rw [writeStep]
  by_cases hs : selected i = true
  · rw [if_pos hs]
    by_cases he : hasName fs (frameFileName i) = true
    · rw [if_pos he]
      exact ⟨[], by simp⟩
    · rw [if_neg he]
      refine ⟨[(frameFileName i, fr)], rfl, ?_⟩
      intro p hp
      simp only [List.mem_singleton] at hp
      subst hp
      simpa using he
  · rw [if_neg hs]
    exact ⟨[], by simp⟩

theorem framesLoop_append (fs : List (String × Nat)) (l : List (Nat × Nat)) :
    ∃ new, framesLoop fs l = fs ++ new ∧ ∀ p ∈ new, hasName fs p.1 = false := by
  induction l generalizing fs with
  | nil => exact ⟨[], by simp [framesLoop]⟩
  | cons hd tl ih =>
    obtain ⟨i, fr⟩ := hd
    obtain ⟨t, ht, htf⟩ := writeStep_append fs i fr
    obtain ⟨new', hnew', hfresh⟩ := ih (writeStep fs i fr)
    refine ⟨t ++ new', ?_, ?_⟩
    · show framesLoop (writeStep fs i fr) tl = fs ++ (t ++ new')
      rw [hnew', ht, List.append_assoc]
    · intro p hp
      rcases List.mem_append.mp hp with hp | hp
      · exact htf p hp
      · have hf := hfresh p hp
        rw [ht, hasName_append] at hf
        exact (Bool.or_eq_false_iff.mp hf).1

theorem hasName_framesLoop_mono {fs : List (String × Nat)} {l : List (Nat × Nat)}
    {nm : String} (h : hasName fs nm = true) :
    hasName (framesLoop fs l) nm = true := by
  obtain ⟨new, hnew, _⟩ := framesLoop_append fs l
  rw [hnew, hasName_append, h]
  rfl

theorem framesLoop_covers {fs : List (String × Nat)} {l : List (Nat × Nat)} :
    ∀ q ∈ l, selected q.1 = true →
      hasName (framesLoop fs l) (frameFileName q.1) = true := by
  induction l generalizing fs with
  | nil => intro q hq; cases hq
  | cons hd tl ih =>
    obtain ⟨i, fr⟩ := hd
    intro q hq hsel
    rcases List.mem_cons.mp hq with rfl | hq'
    · show hasName (framesLoop (writeStep fs i fr) tl) (frameFileName i) = true
      apply hasName_framesLoop_mono
      rw [writeStep, if_pos hsel]
      by_cases he : hasName fs (frameFileName i) = true
      · rw [if_pos he]
        exact he
      · rw [if_neg he, hasName_append]
        simp [hasName]
    · show hasName (framesLoop (writeStep fs i fr) tl) (frameFileName q.1) = true
      exact ih q hq' hsel

theorem framesLoop_noop {fs : List (String × Nat)} {l : List (Nat × Nat)}
    (h : ∀ q ∈ l, selected q.1 = true → hasName fs (frameFileName q.1) = true) :
    framesLoop fs l = fs := by
  induction l generalizing fs with
  | nil => rfl
  | cons hd tl ih =>
    obtain ⟨i, fr⟩ := hd
    have hstep : writeStep fs i fr = fs := by
      rw [writeStep]
      by_cases hs : selected i = true
      · rw [if_pos hs, if_pos (h (i, fr) (List.mem_cons_self _ _) hs)]
      · rw [if_neg hs]
    show framesLoop (writeStep fs i fr) tl = fs
    rw [hstep]
    exact ih (fun q hq => h q (List.mem_cons_of_mem _ hq))

theorem framesLoop_mem {fs : List (String × Nat)} {l : List (Nat × Nat)}
    {p : String × Nat} (hp : p ∈ framesLoop fs l) :
    p ∈ fs ∨ ∃ q ∈ l, selected q.1 = true ∧ p = (frameFileName q.1, q.2) := by
  induction l generalizing fs with
  | nil => exact Or.inl hp
  | cons hd tl ih =>
    obtain ⟨i, fr⟩ := hd
    have hp' : p ∈ framesLoop (writeStep fs i fr) tl := hp
    rcases ih hp' with hin | ⟨q, hq, hsel, hpq⟩
    · rw [writeStep] at hin
      by_cases hs : selected i = true
      · rw [if_pos hs] at hin
        by_cases he : hasName fs (frameFileName i) = true
        · rw [if_pos he] at hin
          exact Or.inl hin
        · rw [if_neg he] at hin
          rcases List.mem_append.mp hin with hin | hin
          · exact Or.inl hin
          · simp only [List.mem_singleton] at hin
            exact Or.inr ⟨(i, fr), List.mem_cons_self _ _, hs, hin⟩
      · rw [if_neg hs] at hin
        exact Or.inl hin
    · exact Or.inr ⟨q, List.mem_cons_of_mem _ hq, hsel, hpq⟩

theorem framesLoop_nodup {fs : List (String × Nat)} {l : List (Nat × Nat)}
    (h : (fs.map Prod.fst).Nodup) :
    ((framesLoop fs l).map Prod.fst).Nodup := by
  induction l generalizing fs with
  | nil => exact h
  | cons hd tl ih =>
    obtain ⟨i, fr⟩ := hd
    show ((framesLoop (writeStep fs i fr) tl).map Prod.fst).Nodup
    apply ih
    rw [writeStep]
    by_cases hs : selected i = true
    · rw [if_pos hs]
      by_cases he : hasName fs (frameFileName i) = true
      · rw [if_pos he]
        exact h
      · rw [if_neg he, List.map_append]
        have hnm : frameFileName i ∉ fs.map Prod.fst := fun hmem =>
          he ((hasName_eq_mem fs (frameFileName i)).mpr hmem)
        simp [List.nodup_append, h, hnm]
    · rw [if_neg hs]
      exact h

/-- C5: re-running the sampler is idempotent; a run on a directory that
already holds some expected files appends only files that were missing
(every pre-existing entry is kept, in place and unchanged), because the
existence check precedes every write. -/
theorem frames_rerun (fs : List (String × Nat)) (frames : List Nat) :
    extract_frames (extract_frames fs frames) frames = extract_frames fs frames ∧
    ∃ new, extract_frames fs frames = fs ++ new ∧
      ∀ p ∈ new, hasName fs p.1 = false := by
  constructor
  · simp only [extract_frames]
    apply framesLoop_noop
    intro q hq hsel
    exact framesLoop_covers q hq hsel
  · exact framesLoop_append fs frames.enum

/-- C5 witness: re-running on a directory already holding `frame_000000.jpg`
is a no-op the second time. -/
theorem frames_rerun_witness :
    extract_frames (extract_frames [("frame_000000.jpg", 3)] [9, 9, 9, 9, 9, 9])
        [9, 9, 9, 9, 9, 9] =
      extract_frames [("frame_000000.jpg", 3)] [9, 9, 9, 9, 9, 9] :=
  (frames_rerun [("frame_000000.jpg", 3)] [9, 9, 9, 9, 9, 9]).1

set_option maxRecDepth 8000 in
/-- C2: a frame index is selected iff divisible by 5 or by 64; every write of
a fresh run is named `frame_{i:06d}.jpg` for a selected index and no name is
ever written twice; every selected index of the stream ends up present; and
a 700-frame stream exports exactly the 148 distinct indices
`{0,5,...,695} ∪ {0,64,...,640}`. -/
theorem frame_sampling_rule :
    (∀ i : Nat, selected i = true ↔ (i % 5 = 0 ∨ i % 64 = 0)) ∧
    (∀ frames : List Nat, ((extract_frames [] frames).map Prod.fst).Nodup) ∧
    (∀ frames : List Nat, ∀ p ∈ extract_frames [] frames,
      ∃ q ∈ frames.enum, selected q.1 = true ∧ p = (frameFileName q.1, q.2)) ∧
    (∀ frames : List Nat, ∀ q ∈ frames.enum, selected q.1 = true →
      hasName (extract_frames [] frames) (frameFileName q.1) = true) ∧
    (exportedIndices 700).length = 148 ∧
    (exportedIndices 700).Nodup ∧
    (∀ i : Nat, i ∈ exportedIndices 700 ↔
      ((∃ k ≤ 139, i = 5 * k) ∨ (∃ k ≤ 10, i = 64 * k))) := by
  refine ⟨?_, ?_, ?_, ?_, by decide, by decide, ?_⟩
  · intro i
    simp [selected]
  · intro frames
    exact framesLoop_nodup (by simp)
  · intro frames p hp
    rcases framesLoop_mem hp with hin | hsel
    · cases hin
    · exact hsel
  · intro frames q hq hsel
    exact framesLoop_covers q hq hsel
  · intro i
    rw [exportedIndices, List.mem_filter, List.mem_range]
    constructor
    · rintro ⟨h700, hsel⟩
      rw [selected] at hsel
      simp only [Bool.or_eq_true, beq_iff_eq] at hsel
      rcases hsel with h5 | h64
      · exact Or.inl ⟨i / 5, by omega, by omega⟩
      · exact Or.inr ⟨i / 64, by omega, by omega⟩
    · rintro (⟨k, hk, rfl⟩ | ⟨k, hk, rfl⟩)
      · refine ⟨by omega, ?_⟩
        rw [selected]
        simp only [Bool.or_eq_true, beq_iff_eq]
        left
        omega
      · refine ⟨by omega, ?_⟩
        rw [selected]
        simp only [Bool.or_eq_true, beq_iff_eq]
        right
        omega

/-- C2 witness: the overlap index 320 and a concrete six-frame stream. -/
theorem frame_sampling_rule_witness :
    (selected 320 = true ↔ (320 % 5 = 0 ∨ 320 % 64 = 0)) ∧
    hasName (extract_frames [] [7, 7, 7, 7, 7, 7]) (frameFileName 5) = true :=
  ⟨frame_sampling_rule.1 320,
    frame_sampling_rule.2.2.2.1 [7, 7, 7, 7, 7, 7] (5, 7) (by decide) (by decide)⟩

/-! ### Output-path derivation -/

theorem dropLast_append3 (l : List String) (a b c : String) :
    (l ++ [a, b, c]).dropLast.dropLast.dropLast = l := by
  have h1 : l ++ [a, b, c] = (l ++ [a, b]) ++ [c] := by simp
  have h2 : l ++ [a, b] = (l ++ [a]) ++ [b] := by simp
  rw [h1, List.dropLast_concat, h2, List.dropLast_concat, List.dropLast_concat]

theorem getLastD_append3 (l : List String) (a b c : String) :
    (l ++ [a, b, c]).getLastD "" = c := by
  have h1 : l ++ [a, b, c] = (l ++ [a, b]) ++ [c] := by simp
  rw [h1, List.getLastD_concat]

/-- C6 counterexample: for the input `A/B/ground_truth_bb/n.mat` the write
goes to `A/BBoxes/n.npy` (two levels above the `ground_truth_bb` directory,
`parents[2]` of the file), not to `A/B/BBoxes/n.npy` as the claim's path
pattern states. -/
theorem dst_path_counterexample :
    dstComponents ["A", "B", "ground_truth_bb", "n.mat"] = ["A", "BBoxes", "n.npy"] ∧
    dstComponents ["A", "B", "ground_truth_bb", "n.mat"] ≠
      ["A", "B", "BBoxes", "n.npy"] := by
  constructor
  · decide
  · decide

/-- C6 amended: for an input path `pre/<a2>/ground_truth_bb/<name>.<ext>` the
array is written to `pre/BBoxes/<name>.npy`, i.e. under the parent of the
directory `<a2>` that holds `ground_truth_bb` (`parents[2]` of the input
file), with the last four characters of the file name (the dot and
extension) replaced by `.npy`; the destination directory is created if
absent and a pre-existing file at the destination is silently overwritten
(the single write of `extract_bounding_boxes` is unconditional). -/
theorem dst_path_derivation (pre : List String) (mid nm : String) :
    dstComponents (pre ++ [mid, "ground_truth_bb", nm]) =
      pre ++ ["BBoxes", nm.dropRight 4 ++ ".npy"] := by
  rw [dstComponents, dropLast_append3, getLastD_append3]

/-! ### Pool distribution -/

theorem chunksOf_flatten_aux {α : Type} (c : Nat) :
    ∀ (n : Nat) (l : List α), l.length ≤ n → (chunksOf c l).flatten = l := by
  intro n
  induction n with
  | zero =>
    intro l h
    have hl : l = [] := List.length_eq_zero.mp (by omega)
    subst hl
    simp [chunksOf]
  | succ n ih =>
    intro l h
    cases l with
    | nil => simp [chunksOf]
    | cons x xs =>
      rw [show chunksOf c (x :: xs) = (x :: xs.take c) :: chunksOf c (xs.drop c) from by
        simp [chunksOf]]
      rw [List.flatten_cons]
      rw [ih (xs.drop c) (by rw [List.length_drop]; simp at h; omega)]
      rw [List.cons_append, List.take_append_drop]

theorem chunksOf_flatten {α : Type} (c : Nat) (l : List α) :
    (chunksOf c l).flatten = l :=
  chunksOf_flatten_aux c l.length l (Nat.le_refl _)

/-- C8: for every chunk size (hence every pool size), `poolMap` applies the
per-item function to exactly the submitted items — the invocation trace is
the item list itself, so each of the `N` items is processed exactly once —
and the reassembled result is the plain map over the items in order. -/
theorem poolMap_exactly_once {α β : Type} (c : Nat) (f : α → β) (l : List α) :
    poolMap c f l = l.map f ∧ poolTrace c l = l ∧
      (poolMap c f l).length = l.length := by
  have htrace : poolTrace c l = l := chunksOf_flatten c l
  have hmap : poolMap c f l = l.map f := by
    rw [poolMap, ← List.map_flatten, chunksOf_flatten]
  exact ⟨hmap, htrace, by rw [hmap, List.length_map]⟩

/-! ### Entry-point configuration check -/

/-- C9: with `DATA_ROOT` absent from the environment, `main` prints the hint
and exits with status 1 before any discovery or conversion work; with it
present, no early exit occurs and the work proceeds with its value. -/
theorem mainCheck_dataRoot (env : List (String × String)) :
    ((∀ kv ∈ env, kv.1 ≠ "DATA_ROOT") →
      mainCheck env = MainResult.earlyExit
        "Set the DATA_ROOT environment variable to the parent dir of the h36m directory." 1) ∧
    ((∃ kv ∈ env, kv.1 = "DATA_ROOT") →
      ∃ root, mainCheck env = MainResult.proceed root) := by
  constructor
  · intro h
    have hnone : env.find? (fun kv => kv.1 = "DATA_ROOT") = none := by
      rw [List.find?_eq_none]
      intro kv hkv
      simp [h kv hkv]
    rw [mainCheck, hnone]
  · intro h
    have hsome : (env.find? (fun kv => kv.1 = "DATA_ROOT")).isSome := by
      rw [List.find?_isSome]
      obtain ⟨kv, hkv, heq⟩ := h
      exact ⟨kv, hkv, by simp [heq]⟩
    cases hfind : env.find? (fun kv => kv.1 = "DATA_ROOT") with
    | none => rw [hfind] at hsome; simp at hsome
    | some kv => exact ⟨kv.2, by rw [mainCheck, hfind]⟩

/-- C9 witness: an environment without `DATA_ROOT` exits early with code 1;
one with it proceeds. -/
theorem mainCheck_dataRoot_witness :
    mainCheck [("HOME", "/root")] = MainResult.earlyExit
      "Set the DATA_ROOT environment variable to the parent dir of the h36m directory." 1 ∧
    ∃ root, mainCheck [("DATA_ROOT", "/data"), ("HOME", "/root")] =
      MainResult.proceed root :=
  ⟨(mainCheck_dataRoot [("HOME", "/root")]).1 (by decide),
    (mainCheck_dataRoot [("DATA_ROOT", "/data"), ("HOME", "/root")]).2
      ⟨("DATA_ROOT", "/data"), List.mem_cons_self _ _, rfl⟩⟩

end MetroPose
